import Mathlib

/-!
Shallow embedding of the libc simprocedure summaries from
src/tools/angr/plugins/hooks/libc.py, together with proofs about the
claims of the specification.

Modelling conventions:
* A claripy bitvector value is either fully concrete (`Val.conc n`, the
  numeric value of the bitvector) or a fresh unconstrained symbolic
  variable (`Val.sym id`, where `id` distinguishes the BVS created at a
  given loop offset / field).
* `solver.is_true p` returns `True` only when `p` is concretely true; on
  an unconstrained symbolic operand it returns `False`.  This is captured
  by `isTrueLtV` / `isTrueEqZero` below.
* Memory stores performed by a summary are recorded as an ordered list of
  `MemWrite` events (address, byte width, value), exactly in program
  order.
* Addresses, lengths and sizes are natural numbers; the summaries under
  study only ever manipulate them with `+`, `*`, comparisons and Python
  integer subtraction on values known to be positive, so no wrap-around
  modelling is needed except where a value is materialised as a
  fixed-width bitvector (`BVV(n, bits)`), which is embedded as
  `n % 2 ^ bits`.
-/

/-- A claripy value: concrete with numeric value `n`, or a fresh
unconstrained symbolic variable with identifier `id`. -/
inductive Val where
  | conc (n : Nat)
  | sym (id : Nat)
deriving DecidableEq, Repr

/-- One memory store event: starting byte address, width in bytes, and
the value stored. -/
structure MemWrite where
  addr : Nat
  size : Nat
  val : Val
deriving DecidableEq, Repr

/-- Embeds `state.solver.is_true(v < m)`: concretely decidable only for a
concrete value; an unconstrained symbolic value yields `false`. -/
def isTrueLtV (v : Val) (m : Nat) : Bool :=
  match v with
  | .conc n => n < m
  | .sym _ => false

/-- Embeds `state.solver.is_true(v == 0)`: `false` on a symbolic value. -/
def isTrueEqZero (v : Val) : Bool :=
  match v with
  | .conc n => n = 0
  | .sym _ => false

/-- `zero_extend` of a byte to a wide character keeps the numeric value. -/
def zextVal : Val → Val
  | .conc n => .conc n
  | .sym i => .sym i

/-- `get_byte(WCHAR_BYTES - 1)` of a 4-byte wide character: the least
significant byte of its numeric value. -/
def getLowByte : Val → Val
  | .conc n => .conc (n % 256)
  | .sym i => .sym i

/-- Outcome of one run of an encoding converter: the return value
(`ret_val`, number of source units consumed including any terminator),
the stores performed against the destination, and the value written back
through the `src` cursor cell. -/
structure ConvResult where
  retVal : Nat
  destWrites : List MemWrite
  srcWriteBack : Nat
deriving DecidableEq, Repr

/-- The per-character loop of `libc_mbsrtowcs.run` (libc.py lines
297-318).  `mem` gives the byte at each address, `srcBase` is the value
loaded from the `src` cursor, `dest` the destination pointer, `offset`
the current loop index and the final argument the remaining iteration
budget (`len_val - offset`).  Returns `ret_val` together with the list of
destination stores, in program order.  Note that in the fallback branch
(source unit not concretely below 0x80) the store to
`dest + offset * WCHAR_BYTES` is NOT guarded by the `dest == 0` check. -/
def mbsLoop (mem : Nat → Val) (srcBase dest : Nat) : Nat → Nat → Nat × List MemWrite
  | _, 0 => (0, [])
  | offset, fuel + 1 =>
    let b := mem (srcBase + offset)
    let ws : List MemWrite :=
      if isTrueLtV b 128 then
        if dest ≠ 0 then [⟨dest + offset * 4, 4, zextVal b⟩] else []
      else
        [⟨dest + offset * 4, 4, .sym offset⟩]
    if isTrueEqZero b then
      (1, ws)
    else
      let r := mbsLoop mem srcBase dest (offset + 1) fuel
      (r.1 + 1, ws ++ r.2)

/-- `libc_mbsrtowcs.run` (libc.py lines 284-324) for a concrete `len`
argument: `len_val = min(max_dest_size, solver.max(len))` with
`max_dest_size = 1024`; after the loop the `src` cursor is written back
advanced by `ret_val` (narrow) units. -/
def libc_mbsrtowcs (mem : Nat → Val) (srcBase dest lenArg : Nat) : ConvResult :=
  let lenVal := min 1024 lenArg
  let r := mbsLoop mem srcBase dest 0 lenVal
  ⟨r.1, r.2, srcBase + r.1⟩

/-- The per-character loop of `libc_wcsrtombs.run` (libc.py lines
696-717).  `wmem` gives the 4-byte wide character loaded at each byte
address (loads are only made at `srcBase + offset * 4`).  As in
`mbsLoop`, the fallback store is not guarded by `dest == 0`. -/
def wcsLoop (wmem : Nat → Val) (srcBase dest : Nat) : Nat → Nat → Nat × List MemWrite
  | _, 0 => (0, [])
  | offset, fuel + 1 =>
    let wc := wmem (srcBase + offset * 4)
    let ws : List MemWrite :=
      if isTrueLtV wc 128 then
        if dest ≠ 0 then [⟨dest + offset, 1, getLowByte wc⟩] else []
      else
        [⟨dest + offset, 1, .sym offset⟩]
    if isTrueEqZero wc then
      (1, ws)
    else
      let r := wcsLoop wmem srcBase dest (offset + 1) fuel
      (r.1 + 1, ws ++ r.2)

/-- `libc_wcsrtombs.run` (libc.py lines 683-723) for a concrete `len`
argument; the `src` cursor is written back advanced by
`ret_val * WCHAR_BYTES` bytes. -/
def libc_wcsrtombs (wmem : Nat → Val) (srcBase dest lenArg : Nat) : ConvResult :=
  let lenVal := min 1024 lenArg
  let r := wcsLoop wmem srcBase dest 0 lenVal
  ⟨r.1, r.2, srcBase + r.1 * 4⟩

/-- The destination stores `mbsLoop` performs for an all-ASCII concrete
source string `s` starting at loop index `offset`: one 4-byte store per
source byte, at `dest + i * 4`, holding the zero-extended byte. -/
def wideWrites (dest offset : Nat) : List Nat → List MemWrite
  | [] => []
  | b :: rest => ⟨dest + offset * 4, 4, .conc b⟩ :: wideWrites dest (offset + 1) rest

/-- The destination stores `wcsLoop` performs for an all-ASCII concrete
wide source string `s`: one 1-byte store per source unit, at `dest + i`,
holding the low byte. -/
def narrowWrites (dest offset : Nat) : List Nat → List MemWrite
  | [] => []
  | b :: rest => ⟨dest + offset, 1, .conc b⟩ :: narrowWrites dest (offset + 1) rest

/-- Outcome of one run of a formatted-output summary: the bytes of the
(possibly truncated) rendered output stored at the destination, the
offset of the terminating null store relative to the destination
(`none` when nothing at all is written, which happens only on the
`size == 0` early return of `snprintf`), and the returned value. -/
structure SnprintfResult where
  stored : List Nat
  nullOffset : Option Nat
  ret : Nat
deriving DecidableEq, Repr

/-- `libc_snprintf.run` (libc.py lines 378-401) for a concrete `size`
argument and a fully rendered format output `out` (the byte sequence
produced by `fmt_str.replace`; rendering itself is delegated to the
angr `FormatParser` collaborator).  `bits` is `arch.bits`; the return
value is `BVV(len(out_str), bits)`. -/
def libc_snprintf (bits : Nat) (out : List Nat) (size : Nat) : SnprintfResult :=
  if size = 0 then
    ⟨[], none, size⟩
  else
    let outT := if out.length > size - 1 then out.take (size - 1) else out
    ⟨outT, some outT.length, outT.length % 2 ^ bits⟩

/-- A claripy Bool AST, as produced by comparing a Python int with a
claripy bitvector expression; `denote` records the comparison's
mathematical value, which Python truthiness never consults. -/
structure ClaripyBool where
  denote : Bool
deriving DecidableEq, Repr

/-- Python truthiness applied to a claripy AST (`bool(expr)`, claripy's
`Base.__bool__`): it raises ClaripyOperationError unconditionally, for
concrete and symbolic expressions alike; `.error ()` models the raised
exception. -/
def claripyBoolTest (_e : ClaripyBool) : Except Unit Bool :=
  .error ()

/-- Signed value denoted by a 64-bit bitvector with unsigned value
`n % 2 ^ 64` (claripy comparisons default to signed). -/
def bvSigned64 (n : Nat) : Int :=
  if n % 2 ^ 64 < 2 ^ 63 then ((n % 2 ^ 64 : Nat) : Int)
  else ((n % 2 ^ 64 : Nat) : Int) - 2 ^ 64

/-- `libc__snprintf_chk.run` (libc.py lines 426-443) for a 64-bit `slen`
argument of unsigned value `slen`.  The computed
`size = self.state.solver.max(slen)` (a Python int) is never used: the
size check at line 433 is `if (out_str.size() // 8) > slen - 1:` where
`slen` is the raw claripy bitvector argument, so `slen - 1` is a 64-bit
bitvector expression, the comparison yields a claripy Bool AST, and the
`if` statement applies Python truthiness to that AST — which raises
ClaripyOperationError before any truncation, store, null-termination or
return can happen, even for a concrete `slen`.  The `.ok` branch below
translates the (unreachable) remainder of the function. -/
def libc__snprintf_chk (bits : Nat) (out : List Nat) (_maxlen slen : Nat) :
    Except Unit SnprintfResult :=
  let _size := slen
  match claripyBoolTest
      ⟨decide ((out.length : Int) > bvSigned64 (slen + (2 ^ 64 - 1)))⟩ with
  | .error e => .error e
  | .ok b =>
    let outT := if b then out.take (max (slen - 1) 1) else out
    .ok ⟨outT, some outT.length, outT.length % 2 ^ bits⟩

/-- One slot of the environment list walked by `libc_getenv.run`: either
the `envp` pointer was read successfully and points at a `KEY=VALUE`
string (given as its byte values, null terminator excluded), or some
exception was raised while reading or processing the slot. -/
inductive EnvSlot where
  | ok (addr : Nat) (entry : List Val)
  | err
deriving DecidableEq, Repr

/-- The `ret_expr` claripy expression accumulated by `libc_getenv.run`:
it starts as `ret_val == 0` and each symbolic entry widens it with
`Or(acc, And(ret_val > envp, ret_val < envp + strlen))`. -/
inductive RetExpr where
  | eqZero
  | orRange (e : RetExpr) (lo hi : Nat)
deriving DecidableEq, Repr

/-- Truth of a `ret_expr` under a concrete assignment `r` to `ret_val`. -/
def RetExpr.sat : RetExpr → Nat → Prop
  | .eqZero, r => r = 0
  | .orRange e lo hi, r => RetExpr.sat e r ∨ (lo < r ∧ r < hi)

def RetExpr.satDec (e : RetExpr) (r : Nat) : Decidable (RetExpr.sat e r) :=
  match e with
  | .eqZero => inferInstanceAs (Decidable (r = 0))
  | .orRange e _ _ => @instDecidableOr _ _ (RetExpr.satDec e r) inferInstance

instance (e : RetExpr) (r : Nat) : Decidable (RetExpr.sat e r) :=
  RetExpr.satDec e r

/-- Result of `libc_getenv.run`: either an early concrete-match return of
a pointer just past the matched `KEY=` prefix (no constraint is added),
or the fresh symbolic `ret_val` is returned after `ret_expr` is added to
the path constraints. -/
inductive GetenvRes where
  | found (p : Nat)
  | symRet (e : RetExpr)
deriving DecidableEq, Repr

/-- An entry string is concrete when every byte of it is concrete
(`state.solver.symbolic(envp_str)` is false). -/
def entryConcrete (entry : List Val) : Bool :=
  entry.all fun v => match v with | .conc _ => true | .sym _ => false

/-- Numeric bytes of a fully concrete entry (symbolic bytes map to 0;
never reached under `entryConcrete`). -/
def concBytes (entry : List Val) : List Nat :=
  entry.map fun v => match v with | .conc n => n | .sym _ => 0

/-- `s.split("=")[0]` on a decoded Python str (given as its code
points): the part before the first `'='` (code point 61); the whole
string when no `'='` occurs. -/
def keyOf (s : List Nat) : List Nat :=
  s.takeWhile (fun b => b ≠ 61)

/-- Strict UTF-8 decoding of a byte sequence into Unicode code points,
as performed by Python's `bytes.decode("utf8")`: stray continuation
bytes, truncated sequences, overlong encodings (C0/C1 leads, E0 with a
continuation below A0, F0 with a continuation below 90), surrogates
(ED A0-BF) and values above U+10FFFF (F4 with a continuation above 8F,
leads above F4) are all rejected; `none` models a raised
UnicodeDecodeError. -/
def utf8Decode : List Nat → Option (List Nat)
  | [] => some []
  | b :: rest =>
    if b < 0x80 then
      (utf8Decode rest).map (fun cs => b :: cs)
    else if 0xC2 ≤ b ∧ b ≤ 0xDF then
      match rest with
      | c1 :: rest2 =>
        if 0x80 ≤ c1 ∧ c1 ≤ 0xBF then
          (utf8Decode rest2).map (fun cs => ((b - 0xC0) * 64 + (c1 - 0x80)) :: cs)
        else none
      | [] => none
    else if 0xE0 ≤ b ∧ b ≤ 0xEF then
      match rest with
      | c1 :: c2 :: rest2 =>
        if (if b = 0xE0 then 0xA0 else 0x80) ≤ c1 ∧
            c1 ≤ (if b = 0xED then 0x9F else 0xBF) ∧
            0x80 ≤ c2 ∧ c2 ≤ 0xBF then
          (utf8Decode rest2).map
            (fun cs => ((b - 0xE0) * 4096 + (c1 - 0x80) * 64 + (c2 - 0x80)) :: cs)
        else none
      | _ => none
    else if 0xF0 ≤ b ∧ b ≤ 0xF4 then
      match rest with
      | c1 :: c2 :: c3 :: rest2 =>
        if (if b = 0xF0 then 0x90 else 0x80) ≤ c1 ∧
            c1 ≤ (if b = 0xF4 then 0x8F else 0xBF) ∧
            0x80 ≤ c2 ∧ c2 ≤ 0xBF ∧ 0x80 ≤ c3 ∧ c3 ≤ 0xBF then
          (utf8Decode rest2).map
            (fun cs => ((b - 0xF0) * 262144 + (c1 - 0x80) * 4096
              + (c2 - 0x80) * 64 + (c3 - 0x80)) :: cs)
        else none
      | _ => none
    else none

/-- The walk of `libc_getenv.run` over the environment list (libc.py
lines 143-179).  `nameSym` records whether the looked-up name string was
symbolic; when it is false, `name` holds the UTF-8-decoded code points
of the target key.  Reaching the end of the slot list models loading a
null `envp` (the `envp == 0` break); an `err` slot models an exception
raised while reading or processing that slot, which breaks out of the
loop.  For a concrete entry, the entry bytes are decoded as UTF-8
inside the try block (libc.py lines 165-167): a decode failure raises
and therefore also breaks out of the loop; on success the key is the
decoded string up to the first `'='` and a match returns
`envp + len(key) + 1` where `len(key)` counts decoded characters, not
bytes.  In both non-`found` outcomes the accumulated `ret_expr` is
added and the fresh symbolic `ret_val` returned. -/
def getenvWalk (nameSym : Bool) (name : List Nat) :
    List EnvSlot → RetExpr → GetenvRes
  | [], acc => .symRet acc
  | .err :: _, acc => .symRet acc
  | .ok addr entry :: rest, acc =>
    if nameSym || !entryConcrete entry then
      getenvWalk nameSym name rest (.orRange acc addr (addr + entry.length))
    else
      match utf8Decode (concBytes entry) with
      | none => .symRet acc
      | some s =>
        if keyOf s = name then
          .found (addr + (keyOf s).length + 1)
        else
          getenvWalk nameSym name rest acc

/-- `libc_getenv.run`: when the loaded name string is concrete it is
decoded as UTF-8 at libc.py line 137, OUTSIDE the try block, so a decode
failure there propagates out of the summary (`.error ()`); otherwise
the walk runs starting from `ret_expr = (ret_val == 0)`. -/
def libc_getenv (nameSym : Bool) (nameBytes : List Nat)
    (slots : List EnvSlot) : Except Unit GetenvRes :=
  match (if nameSym then some [] else utf8Decode nameBytes) with
  | none => .error ()
  | some nameChars => .ok (getenvWalk nameSym nameChars slots .eqZero)

/-- A slot that an error-free, matchless prefix of the walk may contain:
it was read successfully and either goes to the symbolic disjunction
branch or is concrete, decodes as UTF-8, and its decoded key differs
from the (decoded) name. -/
def slotNoMatch (nameSym : Bool) (name : List Nat) : EnvSlot → Bool
  | .err => false
  | .ok _ entry =>
    nameSym || !entryConcrete entry ||
      (match utf8Decode (concBytes entry) with
       | none => false
       | some s => decide (keyOf s ≠ name))

/-- The `ret_expr` accumulated over a list of processed slots. -/
def accumExpr (nameSym : Bool) : List EnvSlot → RetExpr → RetExpr
  | [], acc => acc
  | .err :: _, acc => acc
  | .ok addr entry :: rest, acc =>
    if nameSym || !entryConcrete entry then
      accumExpr nameSym rest (.orRange acc addr (addr + entry.length))
    else
      accumExpr nameSym rest acc

/-- Heap abstraction for the lazy-singleton summaries: `malloc`
(delegated to angr's summary) hands out the next free pointer and bumps
an allocation counter. -/
structure Heap where
  next : Nat
  allocCount : Nat
deriving DecidableEq, Repr

/-- `inline_call(malloc, sz).ret_expr`. -/
def mallocCall (h : Heap) (sz : Nat) : Nat × Heap :=
  (h.next, ⟨h.next + sz, h.allocCount + 1⟩)

/-- Outcome of one lazy-singleton summary call: returned pointer, heap
after the call, cache attribute after the call, and the memory stores
performed during the call. -/
structure SingletonResult where
  ret : Nat
  heap : Heap
  cache : Option Nat
  writes : List MemWrite
deriving DecidableEq, Repr

/-- `libc_getlogin.run` (libc.py lines 222-228): on a cold cache
(`LOGIN_PTR is None`) allocate 256 bytes, null-terminate the tail and
cache the pointer; otherwise return the cached pointer untouched. -/
def libc_getlogin (h : Heap) (cache : Option Nat) : SingletonResult :=
  match cache with
  | some p => ⟨p, h, some p, []⟩
  | none =>
    let m := mallocCall h 256
    ⟨m.1, m.2, some m.1, [⟨m.1 + 255, 1, .conc 0⟩]⟩

/-- `libc_getpwnam.run` (libc.py lines 242-278) on a 64-bit architecture
(`ptr_size = 8`, `passwd_size = 8 * 5 + 8 = 48`): on a cold cache
(`PASSWD_PTR is None`) allocate the five 4096-byte string buffers (in
dict insertion order pw_name, pw_paswd, pw_gecos, pw_dir, pw_shell, each
null-terminated at its tail), allocate the passwd struct, store the
pw_name and pw_paswd pointers, two fresh 32-bit symbolic values for
pw_uid and pw_gid (embedded as `.sym 0` and `.sym 1`), then the
pw_gecos, pw_dir and pw_shell pointers; otherwise return the cached
pointer untouched. -/
def libc_getpwnam (h : Heap) (cache : Option Nat) : SingletonResult :=
  match cache with
  | some p => ⟨p, h, some p, []⟩
  | none =>
    let m1 := mallocCall h 4096
    let m2 := mallocCall m1.2 4096
    let m3 := mallocCall m2.2 4096
    let m4 := mallocCall m3.2 4096
    let m5 := mallocCall m4.2 4096
    let mp := mallocCall m5.2 48
    let p := mp.1
    ⟨p, mp.2, some p,
      [⟨m1.1 + 4095, 1, .conc 0⟩, ⟨m2.1 + 4095, 1, .conc 0⟩,
       ⟨m3.1 + 4095, 1, .conc 0⟩, ⟨m4.1 + 4095, 1, .conc 0⟩,
       ⟨m5.1 + 4095, 1, .conc 0⟩,
       ⟨p, 8, .conc m1.1⟩, ⟨p + 8, 8, .conc m2.1⟩,
       ⟨p + 16, 4, .sym 0⟩, ⟨p + 20, 4, .sym 1⟩,
       ⟨p + 24, 8, .conc m3.1⟩, ⟨p + 32, 8, .conc m4.1⟩,
       ⟨p + 40, 8, .conc m5.1⟩]⟩

/-- `libc_setlocale.run` (libc.py lines 460-468): on a cold cache
(`self.locale is None`) allocate 256 bytes, null-terminate the tail and
cache the pointer; otherwise return the cached pointer untouched. -/
def libc_setlocale (h : Heap) (cache : Option Nat) : SingletonResult :=
  match cache with
  | some p => ⟨p, h, some p, []⟩
  | none =>
    let m := mallocCall h 256
    ⟨m.1, m.2, some m.1, [⟨m.1 + 255, 1, .conc 0⟩]⟩

/-- `libc_bindtextdomain.run` (libc.py lines 470-478): on a cold cache
(`self.domainname is None`) allocate 256 bytes, null-terminate the tail
and cache the pointer; otherwise return the cached pointer untouched. -/
def libc_bindtextdomain (h : Heap) (cache : Option Nat) : SingletonResult :=
  match cache with
  | some p => ⟨p, h, some p, []⟩
  | none =>
    let m := mallocCall h 256
    ⟨m.1, m.2, some m.1, [⟨m.1 + 255, 1, .conc 0⟩]⟩

/-- `libc_textdomain.run` (libc.py lines 480-488): on a cold cache
(`self.domainname is None`) allocate 256 bytes, null-terminate the tail
and cache the pointer; otherwise return the cached pointer untouched. -/
def libc_textdomain (h : Heap) (cache : Option Nat) : SingletonResult :=
  match cache with
  | some p => ⟨p, h, some p, []⟩
  | none =>
    let m := mallocCall h 256
    ⟨m.1, m.2, some m.1, [⟨m.1 + 255, 1, .conc 0⟩]⟩

/-- `libc_signal.run` (libc.py lines 492-498) for a concrete signal
number: the signal table maps signal numbers to installed handlers; an
absent entry is first filled with the sentinel `BVV(-1, arch.bits)`
(numerically `2 ^ bits - 1`), then the previous entry is returned and
`handler` installed. -/
def libc_signal (bits : Nat) (tbl : Nat → Option Nat) (signum handler : Nat) :
    Nat × (Nat → Option Nat) :=
  let old := match tbl signum with
    | some p => p
    | none => 2 ^ bits - 1
  (old, fun n => if n = signum then some handler else tbl n)

/-- The single constraint emitted by `libc_strrchr.run` (libc.py lines
87-108) in the concrete-strlen branch, as a predicate over the value
assigned to the fresh 64-bit `strrchr` variable: with
`max_search = strlen + 1`, the constraint is
`Or(And(ret >= s_addr, ret < s_addr + max_search), ret == 0)`.  Nothing
about the searched character or the string contents is constrained. -/
def libc_strrchr (sAddr sLen : Nat) : Nat → Prop :=
  fun ret => (sAddr ≤ ret ∧ ret < sAddr + (sLen + 1)) ∨ ret = 0

instance (sAddr sLen ret : Nat) : Decidable (libc_strrchr sAddr sLen ret) := by
  unfold libc_strrchr
  infer_instance

/-- A concrete entry slot whose key does not match the target name: it
is read successfully, is fully concrete, decodes as UTF-8, and its
decoded key differs from the decoded name. -/
def slotConcNoMatch (name : List Nat) : EnvSlot → Bool
  | .err => false
  | .ok _ e =>
    entryConcrete e &&
      (match utf8Decode (concBytes e) with
       | none => false
       | some s => decide (keyOf s ≠ name))

/-! ## Concrete fixtures used by the witness theorems -/

/-- Narrow memory holding the bytes of the string "hi" followed by a null
terminator at address 5000. -/
def memHi : Nat → Val := fun a =>
  if a = 5000 then .conc 104
  else if a = 5001 then .conc 105
  else if a = 5002 then .conc 0
  else .conc 7

/-- Wide memory holding the zero-extended wide characters of "hi" and a
null terminator, laid out in 4-byte strides from address 9000 (the image
of `memHi` under the narrow-to-wide conversion). -/
def wmemHi : Nat → Val := fun a =>
  if a = 9000 then .conc 104
  else if a = 9004 then .conc 105
  else if a = 9008 then .conc 0
  else .conc 7

/-- Source memory whose first unit at address 5000 is the concrete byte
0x80 (not below 0x80, so the converters take the symbolic fallback path)
followed by a null terminator. -/
def c6mem : Nat → Val := fun a =>
  if a = 5000 then .conc 128 else .conc 0

/-- The environment entry "HOME=/root" as concrete bytes. -/
def envHome : List Val := [72, 79, 77, 69, 61, 47, 114, 111, 111, 116].map .conc

/-- The environment entry "PATH=/bin" as concrete bytes. -/
def envPath : List Val := [80, 65, 84, 72, 61, 47, 98, 105, 110].map .conc

/-- The environment entry "Ké=x" as concrete bytes: its key is the two
characters K and é, encoded in UTF-8 as the three bytes
`[75, 0xC3, 0xA9]`. -/
def envKe : List Val := [75, 195, 169, 61, 120].map .conc

/-- A signal table with no handler installed yet. -/
def emptySigTbl : Nat → Option Nat := fun _ => none

/-- A memory filled with zero bytes. -/
def zeroMem : Nat → Nat := fun _ => 0

/-! ## Helper lemmas about the converter loops -/

theorem mbsLoop_null_step (mem : Nat → Val) (srcBase dest offset fuel : Nat)
    (hb : mem (srcBase + offset) = .conc 0) :
    mbsLoop mem srcBase dest offset (fuel + 1) =
      (1, if dest ≠ 0 then [⟨dest + offset * 4, 4, .conc 0⟩] else []) := by
  simp [mbsLoop, hb, isTrueEqZero, isTrueLtV, zextVal]

theorem mbsLoop_cons_step (mem : Nat → Val) (srcBase dest offset fuel : Nat)
    (b : Nat) (hb : mem (srcBase + offset) = .conc b) (hbne : b ≠ 0) :
    mbsLoop mem srcBase dest offset (fuel + 1) =
      ((mbsLoop mem srcBase dest (offset + 1) fuel).1 + 1,
        (if b < 128 then
          (if dest ≠ 0 then [⟨dest + offset * 4, 4, .conc b⟩] else [])
         else [⟨dest + offset * 4, 4, .sym offset⟩]) ++
        (mbsLoop mem srcBase dest (offset + 1) fuel).2) := by
  simp [mbsLoop, hb, isTrueEqZero, isTrueLtV, zextVal, hbne]

theorem wcsLoop_null_step (wmem : Nat → Val) (srcBase dest offset fuel : Nat)
    (hb : wmem (srcBase + offset * 4) = .conc 0) :
    wcsLoop wmem srcBase dest offset (fuel + 1) =
      (1, if dest ≠ 0 then [⟨dest + offset, 1, .conc 0⟩] else []) := by
  simp [wcsLoop, hb, isTrueEqZero, isTrueLtV, getLowByte]

theorem wcsLoop_cons_step (wmem : Nat → Val) (srcBase dest offset fuel : Nat)
    (b : Nat) (hb : wmem (srcBase + offset * 4) = .conc b) (hbne : b ≠ 0) :
    wcsLoop wmem srcBase dest offset (fuel + 1) =
      ((wcsLoop wmem srcBase dest (offset + 1) fuel).1 + 1,
        (if b < 128 then
          (if dest ≠ 0 then [⟨dest + offset, 1, .conc (b % 256)⟩] else [])
         else [⟨dest + offset, 1, .sym offset⟩]) ++
        (wcsLoop wmem srcBase dest (offset + 1) fuel).2) := by
  simp [wcsLoop, hb, isTrueEqZero, isTrueLtV, getLowByte, hbne]

theorem mbsLoop_concrete (srcBase dest : Nat) (body : List Nat) :
    ∀ offset fuel (mem : Nat → Val),
      (∀ i, i < body.length → mem (srcBase + offset + i) = .conc (body.getD i 0)) →
      (∀ b ∈ body, b ≠ 0) →
      mem (srcBase + offset + body.length) = .conc 0 →
      body.length + 1 ≤ fuel →
      (mbsLoop mem srcBase dest offset fuel).1 = body.length + 1 ∧
      (dest ≠ 0 →
        (⟨dest + (offset + body.length) * 4, 4, .conc 0⟩ : MemWrite) ∈
          (mbsLoop mem srcBase dest offset fuel).2) := by
  induction body with
  | nil =>
    intro offset fuel mem hmem _hnz hnull hfuel
    match fuel, hfuel with
    | fuel + 1, _ =>
      have hb : mem (srcBase + offset) = .conc 0 := by simpa using hnull
      rw [mbsLoop_null_step mem srcBase dest offset fuel hb]
      constructor
      · rfl
      · intro hd
        simp [hd]
  | cons b rest ih =>
    intro offset fuel mem hmem hnz hnull hfuel
    simp only [List.length_cons] at hfuel
    match fuel, hfuel with
    | fuel + 1, hfuel =>
      have hb : mem (srcBase + offset) = .conc b := by
        have h0 := hmem 0 (by simp)
        simpa using h0
      have hbne : b ≠ 0 := hnz b (by simp)
      have hrec := ih (offset + 1) fuel mem
        (fun i hi => by
          have hx := hmem (i + 1) (by simp only [List.length_cons]; omega)
          have haddr : srcBase + offset + (i + 1) = srcBase + (offset + 1) + i := by
            omega
          rw [haddr] at hx
          simpa using hx)
        (fun x hx => hnz x (by simp [hx]))
        (by
          have hx := hnull
          simp only [List.length_cons] at hx
          have haddr : srcBase + offset + (rest.length + 1)
              = srcBase + (offset + 1) + rest.length := by omega
          rw [haddr] at hx
          exact hx)
        (by omega)
      rw [mbsLoop_cons_step mem srcBase dest offset fuel b hb hbne]
      constructor
      · simp only [List.length_cons]
        rw [hrec.1]
      · intro hd
        have hmemb := hrec.2 hd
        have haddr : dest + (offset + 1 + rest.length) * 4
            = dest + (offset + (b :: rest).length) * 4 := by
          simp only [List.length_cons]
          ring_nf
        rw [haddr] at hmemb
        exact List.mem_append.mpr (Or.inr hmemb)

theorem wcsLoop_concrete (srcBase dest : Nat) (body : List Nat) :
    ∀ offset fuel (wmem : Nat → Val),
      (∀ i, i < body.length → wmem (srcBase + (offset + i) * 4) = .conc (body.getD i 0)) →
      (∀ b ∈ body, b ≠ 0) →
      wmem (srcBase + (offset + body.length) * 4) = .conc 0 →
      body.length + 1 ≤ fuel →
      (wcsLoop wmem srcBase dest offset fuel).1 = body.length + 1 ∧
      (dest ≠ 0 →
        (⟨dest + (offset + body.length), 1, .conc 0⟩ : MemWrite) ∈
          (wcsLoop wmem srcBase dest offset fuel).2) := by
  induction body with
  | nil =>
    intro offset fuel wmem hmem _hnz hnull hfuel
    match fuel, hfuel with
    | fuel + 1, _ =>
      have hb : wmem (srcBase + offset * 4) = .conc 0 := by simpa using hnull
      rw [wcsLoop_null_step wmem srcBase dest offset fuel hb]
      constructor
      · rfl
      · intro hd
        simp [hd]
  | cons b rest ih =>
    intro offset fuel wmem hmem hnz hnull hfuel
    simp only [List.length_cons] at hfuel
    match fuel, hfuel with
    | fuel + 1, hfuel =>
      have hb : wmem (srcBase + offset * 4) = .conc b := by
        have h0 := hmem 0 (by simp)
        simpa using h0
      have hbne : b ≠ 0 := hnz b (by simp)
      have hrec := ih (offset + 1) fuel wmem
        (fun i hi => by
          have hx := hmem (i + 1) (by simp only [List.length_cons]; omega)
          have haddr : srcBase + (offset + (i + 1)) * 4
              = srcBase + (offset + 1 + i) * 4 := by ring_nf
          rw [haddr] at hx
          simpa using hx)
        (fun x hx => hnz x (by simp [hx]))
        (by
          have hx := hnull
          simp only [List.length_cons] at hx
          have haddr : srcBase + (offset + (rest.length + 1)) * 4
              = srcBase + (offset + 1 + rest.length) * 4 := by ring_nf
          rw [haddr] at hx
          exact hx)
        (by omega)
      rw [wcsLoop_cons_step wmem srcBase dest offset fuel b hb hbne]
      constructor
      · simp only [List.length_cons]
        rw [hrec.1]
      · intro hd
        have hmemb := hrec.2 hd
        have haddr : dest + (offset + 1 + rest.length)
            = dest + (offset + (b :: rest).length) := by
          simp only [List.length_cons]
          ring_nf
        rw [haddr] at hmemb
        exact List.mem_append.mpr (Or.inr hmemb)

theorem mbsLoop_ascii (srcBase dest : Nat) (body : List Nat) :
    ∀ offset fuel (mem : Nat → Val),
      dest ≠ 0 →
      (∀ i, i < body.length → mem (srcBase + offset + i) = .conc (body.getD i 0)) →
      (∀ b ∈ body, b ≠ 0 ∧ b < 128) →
      mem (srcBase + offset + body.length) = .conc 0 →
      body.length + 1 ≤ fuel →
      mbsLoop mem srcBase dest offset fuel =
        (body.length + 1, wideWrites dest offset (body ++ [0])) := by
  induction body with
  | nil =>
    intro offset fuel mem hd hmem _hok hnull hfuel
    match fuel, hfuel with
    | fuel + 1, _ =>
      have hb : mem (srcBase + offset) = .conc 0 := by simpa using hnull
      rw [mbsLoop_null_step mem srcBase dest offset fuel hb]
      simp [wideWrites, hd]
  | cons b rest ih =>
    intro offset fuel mem hd hmem hok hnull hfuel
    simp only [List.length_cons] at hfuel
    match fuel, hfuel with
    | fuel + 1, hfuel =>
      have hb : mem (srcBase + offset) = .conc b := by
        have h0 := hmem 0 (by simp)
        simpa using h0
      have hbne : b ≠ 0 := (hok b (by simp)).1
      have hblt : b < 128 := (hok b (by simp)).2
      have hrec := ih (offset + 1) fuel mem hd
        (fun i hi => by
          have hx := hmem (i + 1) (by simp only [List.length_cons]; omega)
          have haddr : srcBase + offset + (i + 1) = srcBase + (offset + 1) + i := by
            omega
          rw [haddr] at hx
          simpa using hx)
        (fun x hx => hok x (by simp [hx]))
        (by
          have hx := hnull
          simp only [List.length_cons] at hx
          have haddr : srcBase + offset + (rest.length + 1)
              = srcBase + (offset + 1) + rest.length := by omega
          rw [haddr] at hx
          exact hx)
        (by omega)
      rw [mbsLoop_cons_step mem srcBase dest offset fuel b hb hbne]
      rw [hrec]
      simp [wideWrites, hd, hblt]

theorem wcsLoop_ascii (srcBase dest : Nat) (body : List Nat) :
    ∀ offset fuel (wmem : Nat → Val),
      dest ≠ 0 →
      (∀ i, i < body.length → wmem (srcBase + (offset + i) * 4) = .conc (body.getD i 0)) →
      (∀ b ∈ body, b ≠ 0 ∧ b < 128) →
      wmem (srcBase + (offset + body.length) * 4) = .conc 0 →
      body.length + 1 ≤ fuel →
      wcsLoop wmem srcBase dest offset fuel =
        (body.length + 1, narrowWrites dest offset (body ++ [0])) := by
  induction body with
  | nil =>
    intro offset fuel wmem hd hmem _hok hnull hfuel
    match fuel, hfuel with
    | fuel + 1, _ =>
      have hb : wmem (srcBase + offset * 4) = .conc 0 := by simpa using hnull
      rw [wcsLoop_null_step wmem srcBase dest offset fuel hb]
      simp [narrowWrites, hd]
  | cons b rest ih =>
    intro offset fuel wmem hd hmem hok hnull hfuel
    simp only [List.length_cons] at hfuel
    match fuel, hfuel with
    | fuel + 1, hfuel =>
      have hb : wmem (srcBase + offset * 4) = .conc b := by
        have h0 := hmem 0 (by simp)
        simpa using h0
      have hbne : b ≠ 0 := (hok b (by simp)).1
      have hblt : b < 128 := (hok b (by simp)).2
      have hmod : b % 256 = b := Nat.mod_eq_of_lt (by omega)
      have hrec := ih (offset + 1) fuel wmem hd
        (fun i hi => by
          have hx := hmem (i + 1) (by simp only [List.length_cons]; omega)
          have haddr : srcBase + (offset + (i + 1)) * 4
              = srcBase + (offset + 1 + i) * 4 := by ring_nf
          rw [haddr] at hx
          simpa using hx)
        (fun x hx => hok x (by simp [hx]))
        (by
          have hx := hnull
          simp only [List.length_cons] at hx
          have haddr : srcBase + (offset + (rest.length + 1)) * 4
              = srcBase + (offset + 1 + rest.length) * 4 := by ring_nf
          rw [haddr] at hx
          exact hx)
        (by omega)
      rw [wcsLoop_cons_step wmem srcBase dest offset fuel b hb hbne]
      rw [hrec]
      simp [narrowWrites, hd, hblt, hmod]

theorem narrowWrites_map_val (d : Nat) (s : List Nat) :
    ∀ offset, (narrowWrites d offset s).map MemWrite.val = s.map Val.conc := by
  induction s with
  | nil => intro offset; rfl
  | cons b rest ih =>
    intro offset
    simp [narrowWrites, ih (offset + 1)]

/-! ## Helper lemmas about the getenv walk -/

theorem getenvWalk_first_match (name : List Nat) (addr : Nat) (entry : List Val)
    (chars : List Nat)
    (hconc : entryConcrete entry = true)
    (hdec : utf8Decode (concBytes entry) = some chars)
    (hkey : keyOf chars = name)
    (pre : List EnvSlot) :
    ∀ rest acc, (∀ s ∈ pre, slotConcNoMatch name s = true) →
      getenvWalk false name (pre ++ .ok addr entry :: rest) acc =
        .found (addr + name.length + 1) := by
  induction pre with
  | nil =>
    intro rest acc _h
    simp [getenvWalk, hconc, hdec, hkey]
  | cons s pre ih =>
    intro rest acc hpre
    cases s with
    | err => exact absurd (hpre .err (by simp)) (by simp [slotConcNoMatch])
    | ok a e =>
      have hs := hpre (.ok a e) (by simp)
      simp only [slotConcNoMatch, Bool.and_eq_true] at hs
      obtain ⟨hc, hrest⟩ := hs
      rcases hdd : utf8Decode (concBytes e) with _ | s2
      · rw [hdd] at hrest
        simp at hrest
      · rw [hdd] at hrest
        simp only [decide_eq_true_eq] at hrest
        simp [getenvWalk, hc, hdd, hrest,
          ih rest acc (fun s3 h3 => hpre s3 (by simp [h3]))]

theorem getenvWalk_err_stop (nameSym : Bool) (name : List Nat)
    (pre : List EnvSlot) :
    ∀ rest acc, (∀ s ∈ pre, slotNoMatch nameSym name s = true) →
      getenvWalk nameSym name (pre ++ .err :: rest) acc
        = .symRet (accumExpr nameSym pre acc) := by
  induction pre with
  | nil =>
    intro rest acc _h
    simp [getenvWalk, accumExpr]
  | cons s pre ih =>
    intro rest acc hpre
    cases s with
    | err => exact absurd (hpre .err (by simp)) (by simp [slotNoMatch])
    | ok a e =>
      have hs := hpre (.ok a e) (by simp)
      have ihr := ih rest
      by_cases hsym : (nameSym || !entryConcrete e) = true
      · simp [getenvWalk, accumExpr, hsym,
          ihr _ (fun s2 h2 => hpre s2 (by simp [h2]))]
      · have hn : nameSym = false := by
          cases hx : nameSym
          · rfl
          · exact absurd (by simp [hx]) hsym
        have hc : entryConcrete e = true := by
          cases hx : entryConcrete e
          · exact absurd (by simp [hx]) hsym
          · rfl
        subst hn
        have hx := hs
        simp only [slotNoMatch, hc, Bool.false_or, Bool.not_true] at hx
        rcases hdd : utf8Decode (concBytes e) with _ | s2
        · rw [hdd] at hx
          simp at hx
        · rw [hdd] at hx
          simp only [decide_eq_true_eq] at hx
          simp [getenvWalk, accumExpr, hc, hdd, hx,
            ihr _ (fun s3 h3 => hpre s3 (by simp [h3]))]

theorem accumExpr_sat_zero (nameSym : Bool) (pre : List EnvSlot) :
    ∀ acc, RetExpr.sat acc 0 → RetExpr.sat (accumExpr nameSym pre acc) 0 := by
  induction pre with
  | nil =>
    intro acc h
    simpa [accumExpr] using h
  | cons s pre ih =>
    intro acc h
    cases s with
    | err => simpa [accumExpr] using h
    | ok a e =>
      by_cases hsym : (nameSym || !entryConcrete e) = true
      · simp only [accumExpr, hsym, if_true]
        exact ih _ (Or.inl h)
      · simp only [accumExpr]
        rw [if_neg hsym]
        exact ih _ h

/-! ## Claim theorems -/

/-- Claim C1: for every call to `snprintf` with a concrete capacity of at
least 1, if the fully rendered format output is longer than
`capacity - 1` bytes then the bytes stored at the destination are exactly
the first `capacity - 1` bytes of the rendered output, a null byte is
written at offset `capacity - 1` (immediately after the truncated
output), and the number of bytes written post-truncation (`capacity - 1`)
is returned as an architecture-width integer; when the rendered output
fits, it is stored whole, null-terminated immediately after, and its
byte length is returned. -/
theorem snprintf_truncation_spec (bits : Nat) (out : List Nat) (size : Nat)
    (hsize : 1 ≤ size) :
    (out.length > size - 1 →
      (libc_snprintf bits out size).stored = out.take (size - 1) ∧
      (libc_snprintf bits out size).stored.length = size - 1 ∧
      (libc_snprintf bits out size).nullOffset = some (size - 1) ∧
      (libc_snprintf bits out size).ret = (size - 1) % 2 ^ bits) ∧
    (out.length ≤ size - 1 →
      (libc_snprintf bits out size).stored = out ∧
      (libc_snprintf bits out size).nullOffset = some out.length ∧
      (libc_snprintf bits out size).ret = out.length % 2 ^ bits) := by
  have hne : size ≠ 0 := by omega
  constructor
  · intro hover
    have hlen : (out.take (size - 1)).length = size - 1 := by
      rw [List.length_take]
      omega
    simp [libc_snprintf, hne, hover, hlen]
  · intro hfit
    have hno : ¬(out.length > size - 1) := by omega
    simp [libc_snprintf, hne, hno]

theorem snprintf_truncation_spec_witness :
    1 ≤ 5 ∧
    (libc_snprintf 64 [104, 101, 108, 108, 111] 5).stored = [104, 101, 108, 108] ∧
    (libc_snprintf 64 [104, 101, 108, 108, 111] 5).nullOffset = some 4 ∧
    (libc_snprintf 64 [104, 101, 108, 108, 111] 5).ret = 4 := by
  have h := (snprintf_truncation_spec 64 [104, 101, 108, 108, 111] 5
    (by decide)).1 (by decide)
  refine ⟨by decide, ?_, ?_, ?_⟩
  · rw [h.1]
    decide
  · rw [h.2.2.1]
  · rw [h.2.2.2]
    decide

/-- Claim C2: for every concrete narrow string of bytes below 0x80 ending
in a null byte (within the 1024-unit ceiling), converting narrow-to-wide
with `mbsrtowcs` into a non-zero destination stores exactly the
zero-extended 4-byte units of the string, and converting that wide string
wide-to-narrow with `wcsrtombs` stores exactly the low bytes of those
units, i.e. the original bytes: the round trip is the identity on
all-ASCII strings. -/
theorem ascii_roundtrip_spec (mem wmem : Nat → Val)
    (srcBase d d2 len1 len2 : Nat) (body : List Nat)
    (hd : d ≠ 0) (hd2 : d2 ≠ 0)
    (hascii : ∀ b ∈ body, b ≠ 0 ∧ b < 128)
    (hmem : ∀ i, i < body.length → mem (srcBase + i) = .conc (body.getD i 0))
    (hnull : mem (srcBase + body.length) = .conc 0)
    (hlen1 : body.length + 1 ≤ min 1024 len1)
    (hwmem : ∀ i, i < body.length → wmem (d + i * 4) = .conc (body.getD i 0))
    (hwnull : wmem (d + body.length * 4) = .conc 0)
    (hlen2 : body.length + 1 ≤ min 1024 len2) :
    (libc_mbsrtowcs mem srcBase d len1).destWrites
        = wideWrites d 0 (body ++ [0]) ∧
    (libc_wcsrtombs wmem d d2 len2).destWrites
        = narrowWrites d2 0 (body ++ [0]) ∧
    (libc_wcsrtombs wmem d d2 len2).destWrites.map MemWrite.val
        = (body ++ [0]).map Val.conc := by
  have h1 := mbsLoop_ascii srcBase d body 0 (min 1024 len1) mem hd
    (fun i hi => by simpa using hmem i hi)
    hascii (by simpa using hnull) hlen1
  have h2 := wcsLoop_ascii d d2 body 0 (min 1024 len2) wmem hd2
    (fun i hi => by simpa using hwmem i hi)
    hascii (by simpa using hwnull) hlen2
  refine ⟨?_, ?_, ?_⟩
  · simp [libc_mbsrtowcs, h1]
  · simp [libc_wcsrtombs, h2]
  · simp [libc_wcsrtombs, h2, narrowWrites_map_val]

theorem ascii_roundtrip_spec_witness :
    (libc_mbsrtowcs memHi 5000 9000 10).destWrites
        = wideWrites 9000 0 [104, 105, 0] ∧
    (libc_wcsrtombs wmemHi 9000 7000 10).destWrites
        = narrowWrites 7000 0 [104, 105, 0] ∧
    (libc_wcsrtombs wmemHi 9000 7000 10).destWrites.map MemWrite.val
        = [104, 105, 0].map Val.conc := by
  have h := ascii_roundtrip_spec memHi wmemHi 5000 9000 7000 10 10 [104, 105]
    (by decide) (by decide) (by decide) (by decide) (by decide) (by decide)
    (by decide) (by decide) (by decide)
  simpa using h

/-- Claim C3, counterexample: for the concrete target key "Ké" (bytes
`[75, 195, 169]`) against the single concrete entry "Ké=x" at address
2000, the code returns `envp + len(key) + 1` where `len` counts the
UTF-8-decoded characters of the key (2), yielding the pointer 2003 —
while the claim demands the entry address plus the key byte length (3)
plus 1, i.e. 2004, the position just past the `KEY=` prefix.  The
returned pointer 2003 points at the `'='` byte, not past it. -/
theorem getenv_first_match_counterexample :
    libc_getenv false [75, 195, 169] [.ok 2000 envKe] = .ok (.found 2003) ∧
    (keyOf (concBytes envKe)).length = 3 ∧
    (2003 : Nat) ≠ 2000 + 3 + 1 := by
  refine ⟨?_, by decide, by decide⟩
  rfl

/-- Claim C3, amended: for every `getenv` lookup with a concrete target
key that decodes as UTF-8, against a null-terminated list of concrete
`KEY=VALUE` entries, if some entry decodes as UTF-8 and its decoded key
(the part before the first `'='`) equals the decoded target key, the
call returns a pointer equal to that entry's address plus the number of
decoded characters of the key plus 1 (which is just past the `KEY=`
prefix exactly when the key is ASCII), taking the first matching entry
in list order and examining no further entries (the result does not
depend on the slots after the match); a concrete target key that does
not decode as UTF-8 instead raises out of the summary.  In particular,
looking up "PATH" in ["HOME=/root", "PATH=/bin", null] returns a
pointer to the bytes "/bin". -/
theorem getenv_first_match_spec (nameBytes name : List Nat)
    (pre rest : List EnvSlot) (addr : Nat) (entry : List Val)
    (chars : List Nat)
    (hname : utf8Decode nameBytes = some name)
    (hpre : ∀ s ∈ pre, slotConcNoMatch name s = true)
    (hconc : entryConcrete entry = true)
    (hdec : utf8Decode (concBytes entry) = some chars)
    (hkey : keyOf chars = name) :
    libc_getenv false nameBytes (pre ++ .ok addr entry :: rest)
      = .ok (.found (addr + name.length + 1)) ∧
    (∀ bad slots, utf8Decode bad = none →
      libc_getenv false bad slots = .error ()) := by
  constructor
  · simp only [libc_getenv, if_false, Bool.false_eq_true, hname]
    rw [getenvWalk_first_match name addr entry chars hconc hdec hkey
      pre rest .eqZero hpre]
  · intro bad slots hbad
    simp [libc_getenv, hbad]

theorem getenv_first_match_spec_witness :
    libc_getenv false [80, 65, 84, 72] [.ok 1000 envHome, .ok 2000 envPath]
      = .ok (.found 2005) ∧
    (concBytes envPath).drop 5 = [47, 98, 105, 110] ∧
    libc_getenv false [195] [.ok 1000 envHome] = .error () := by
  have h := getenv_first_match_spec [80, 65, 84, 72] [80, 65, 84, 72]
    [.ok 1000 envHome] [] 2000 envPath [80, 65, 84, 72, 61, 47, 98, 105, 110]
    (by decide) (by decide) (by decide) (by decide) (by decide)
  refine ⟨by simpa using h.1, by decide, h.2 [195] [.ok 1000 envHome] (by decide)⟩

/-- Claim C4: for each of the five lazy-singleton summaries (`getlogin`,
`getpwnam`, `setlocale`, `bindtextdomain`, `textdomain`), two sequential
invocations against the same execution state return the identical
pointer: the first call allocates the buffer exactly once (one `malloc`
for the four simple 256-byte buffers, six for `getpwnam`, whose struct
is additionally populated with the char-pointer fields and the 32-bit
symbolic `pw_uid`/`pw_gid` fields), and the second call returns the
cached pointer with no allocation and no store at all. -/
theorem lazy_singleton_spec (h g k l m : Heap) :
    ((libc_getlogin (libc_getlogin h none).heap (libc_getlogin h none).cache).ret
        = (libc_getlogin h none).ret) ∧
    ((libc_getlogin (libc_getlogin h none).heap (libc_getlogin h none).cache).heap
        = (libc_getlogin h none).heap) ∧
    ((libc_getlogin (libc_getlogin h none).heap (libc_getlogin h none).cache).writes
        = []) ∧
    (libc_getlogin h none).heap.allocCount = h.allocCount + 1 ∧
    ((libc_getpwnam (libc_getpwnam g none).heap (libc_getpwnam g none).cache).ret
        = (libc_getpwnam g none).ret) ∧
    ((libc_getpwnam (libc_getpwnam g none).heap (libc_getpwnam g none).cache).heap
        = (libc_getpwnam g none).heap) ∧
    ((libc_getpwnam (libc_getpwnam g none).heap (libc_getpwnam g none).cache).writes
        = []) ∧
    (libc_getpwnam g none).heap.allocCount = g.allocCount + 6 ∧
    (⟨(libc_getpwnam g none).ret, 8, .conc g.next⟩ : MemWrite)
        ∈ (libc_getpwnam g none).writes ∧
    (⟨(libc_getpwnam g none).ret + 16, 4, .sym 0⟩ : MemWrite)
        ∈ (libc_getpwnam g none).writes ∧
    (⟨(libc_getpwnam g none).ret + 20, 4, .sym 1⟩ : MemWrite)
        ∈ (libc_getpwnam g none).writes ∧
    ((libc_setlocale (libc_setlocale k none).heap (libc_setlocale k none).cache).ret
        = (libc_setlocale k none).ret) ∧
    ((libc_setlocale (libc_setlocale k none).heap (libc_setlocale k none).cache).heap
        = (libc_setlocale k none).heap) ∧
    ((libc_setlocale (libc_setlocale k none).heap (libc_setlocale k none).cache).writes
        = []) ∧
    (libc_setlocale k none).heap.allocCount = k.allocCount + 1 ∧
    ((libc_bindtextdomain (libc_bindtextdomain l none).heap
        (libc_bindtextdomain l none).cache).ret = (libc_bindtextdomain l none).ret) ∧
    ((libc_bindtextdomain (libc_bindtextdomain l none).heap
        (libc_bindtextdomain l none).cache).heap = (libc_bindtextdomain l none).heap) ∧
    ((libc_bindtextdomain (libc_bindtextdomain l none).heap
        (libc_bindtextdomain l none).cache).writes = []) ∧
    (libc_bindtextdomain l none).heap.allocCount = l.allocCount + 1 ∧
    ((libc_textdomain (libc_textdomain m none).heap (libc_textdomain m none).cache).ret
        = (libc_textdomain m none).ret) ∧
    ((libc_textdomain (libc_textdomain m none).heap (libc_textdomain m none).cache).heap
        = (libc_textdomain m none).heap) ∧
    ((libc_textdomain (libc_textdomain m none).heap (libc_textdomain m none).cache).writes
        = []) ∧
    (libc_textdomain m none).heap.allocCount = m.allocCount + 1 := by
  refine ⟨rfl, rfl, rfl, rfl, rfl, rfl, rfl, rfl, ?_, ?_, ?_,
    rfl, rfl, rfl, rfl, rfl, rfl, rfl, rfl, rfl, rfl, rfl, rfl⟩
  · simp [libc_getpwnam, mallocCall]
  · simp [libc_getpwnam, mallocCall]
  · simp [libc_getpwnam, mallocCall]

/-- Claim C5: for every call to `mbsrtowcs` (and `wcsrtombs`) on a
concrete source string whose null terminator lies within the length
bound, conversion stops at and includes the null terminator (the
terminator is converted and stored when the destination is non-zero),
the `src` cursor is written back advanced by exactly the number of
source units consumed (units for `mbsrtowcs`, units times 4 bytes for
`wcsrtombs`), and the return value equals the count of units converted
including the terminator. -/
theorem converter_terminator_spec (mem wmem : Nat → Val)
    (srcBase wsrcBase dest wdest lenArg wlenArg : Nat) (body wbody : List Nat)
    (hmem : ∀ i, i < body.length → mem (srcBase + i) = .conc (body.getD i 0))
    (hnz : ∀ b ∈ body, b ≠ 0)
    (hnull : mem (srcBase + body.length) = .conc 0)
    (hlen : body.length + 1 ≤ min 1024 lenArg)
    (hwmem : ∀ i, i < wbody.length → wmem (wsrcBase + i * 4) = .conc (wbody.getD i 0))
    (hwnz : ∀ b ∈ wbody, b ≠ 0)
    (hwnull : wmem (wsrcBase + wbody.length * 4) = .conc 0)
    (hwlen : wbody.length + 1 ≤ min 1024 wlenArg) :
    (libc_mbsrtowcs mem srcBase dest lenArg).retVal = body.length + 1 ∧
    (libc_mbsrtowcs mem srcBase dest lenArg).srcWriteBack
        = srcBase + (body.length + 1) ∧
    (dest ≠ 0 → (⟨dest + body.length * 4, 4, .conc 0⟩ : MemWrite)
        ∈ (libc_mbsrtowcs mem srcBase dest lenArg).destWrites) ∧
    (libc_wcsrtombs wmem wsrcBase wdest wlenArg).retVal = wbody.length + 1 ∧
    (libc_wcsrtombs wmem wsrcBase wdest wlenArg).srcWriteBack
        = wsrcBase + (wbody.length + 1) * 4 ∧
    (wdest ≠ 0 → (⟨wdest + wbody.length, 1, .conc 0⟩ : MemWrite)
        ∈ (libc_wcsrtombs wmem wsrcBase wdest wlenArg).destWrites) := by
  have h1 := mbsLoop_concrete srcBase dest body 0 (min 1024 lenArg) mem
    (fun i hi => by simpa using hmem i hi) hnz (by simpa using hnull) hlen
  have h2 := wcsLoop_concrete wsrcBase wdest wbody 0 (min 1024 wlenArg) wmem
    (fun i hi => by simpa using hwmem i hi) hwnz (by simpa using hwnull) hwlen
  refine ⟨?_, ?_, ?_, ?_, ?_, ?_⟩
  · simpa [libc_mbsrtowcs] using h1.1
  · simp [libc_mbsrtowcs, h1.1]
  · intro hd
    simpa [libc_mbsrtowcs] using h1.2 hd
  · simpa [libc_wcsrtombs] using h2.1
  · simp [libc_wcsrtombs, h2.1]
  · intro hd
    simpa [libc_wcsrtombs] using h2.2 hd

theorem converter_terminator_spec_witness :
    (libc_mbsrtowcs memHi 5000 9000 10).retVal = 3 ∧
    (libc_mbsrtowcs memHi 5000 9000 10).srcWriteBack = 5003 ∧
    (libc_wcsrtombs wmemHi 9000 7000 10).retVal = 3 ∧
    (libc_wcsrtombs wmemHi 9000 7000 10).srcWriteBack = 9012 := by
  have h := converter_terminator_spec memHi wmemHi 5000 9000 9000 7000 10 10
    [104, 105] [104, 105] (by decide) (by decide) (by decide) (by decide)
    (by decide) (by decide) (by decide) (by decide)
  exact ⟨by simpa using h.1, by simpa using h.2.1, by simpa using h.2.2.2.1,
    by simpa using h.2.2.2.2.1⟩

/-- Claim C6: evaluation of the failing input for count-only mode.  With
destination pointer 0 and a source unit that is not concretely below
0x80, both converters still perform a destination store (a fresh
symbolic unit at `0 + offset * width`), because the fallback branch
lacks the `dest == 0` guard that the fast path has: the count-only
contract is violated by the code. -/
theorem count_only_mode_bug :
    (libc_mbsrtowcs c6mem 5000 0 2).destWrites = [⟨0, 4, .sym 0⟩] ∧
    (libc_wcsrtombs c6mem 5000 0 2).destWrites = [⟨0, 1, .sym 0⟩] := by
  constructor <;> rfl

/-- Claim C7: evaluation of the failing behaviour: every call to
`__snprintf_chk`, for every rendered output and every concrete `slen`
(and independently of `maxlen`), raises before any truncation, store,
null-termination or return happens.  The size check at libc.py line 433
compares the rendered byte length against `slen - 1` where `slen` is
the raw claripy bitvector argument (the computed
`size = solver.max(slen)` at line 432 is never used), and the `if`
statement's Python truthiness test on the resulting claripy Bool AST
raises ClaripyOperationError unconditionally — so the truncation to
`max(slen - 1, 1)` bytes, the null byte, and the architecture-width
return that the claim describes are never produced. -/
theorem snprintf_chk_crash (bits : Nat) (out : List Nat) (maxlen slen : Nat) :
    libc__snprintf_chk bits out maxlen slen = .error () := rfl

/-- Claim C8: for every `getenv` lookup (with the target name either
symbolic or decoding as UTF-8, so that the walk is reached) in which
reading or processing some entry raises an error partway through the
walk, the call does not propagate the error: it stops enumerating at
that entry, adds exactly the disjunctive constraint accumulated over
the entries processed before the error (with the `result == 0`
disjunct always included and satisfiable), and returns the fresh
symbolic result value. -/
theorem getenv_error_policy_spec (nameSym : Bool) (nameBytes name : List Nat)
    (pre rest : List EnvSlot)
    (hname : (if nameSym then some [] else utf8Decode nameBytes) = some name)
    (hpre : ∀ s ∈ pre, slotNoMatch nameSym name s = true) :
    libc_getenv nameSym nameBytes (pre ++ .err :: rest)
      = .ok (.symRet (accumExpr nameSym pre .eqZero)) ∧
    RetExpr.sat (accumExpr nameSym pre .eqZero) 0 := by
  constructor
  · simp only [libc_getenv, hname]
    rw [getenvWalk_err_stop nameSym name pre rest .eqZero hpre]
  · exact accumExpr_sat_zero nameSym pre .eqZero rfl

theorem getenv_error_policy_spec_witness :
    libc_getenv false [80, 65, 84, 72]
        [.ok 1000 envHome, .ok 3000 [.sym 5], .err, .ok 2000 envPath]
      = .ok (.symRet (.orRange .eqZero 3000 3001)) ∧
    RetExpr.sat (.orRange .eqZero 3000 3001) 0 := by
  have h := getenv_error_policy_spec false [80, 65, 84, 72] [80, 65, 84, 72]
    [.ok 1000 envHome, .ok 3000 [.sym 5]] [.ok 2000 envPath]
    (by decide) (by decide)
  have ha : accumExpr false [.ok 1000 envHome, .ok 3000 [.sym 5]] .eqZero
      = .orRange .eqZero 3000 3001 := by decide
  rw [ha] at h
  simpa using h

/-- Claim C9: for every concrete signal number, the first call to
`signal(n, handler)` within an execution returns the sentinel concrete
value -1 at architecture width (`2 ^ bits - 1`) as the previous handler
and installs `handler` in the signal table; a subsequent call
`signal(n, handler2)` returns exactly the handler installed by the
earlier call. -/
theorem signal_spec (bits : Nat) (tbl : Nat → Option Nat) (n h1 h2 : Nat)
    (hfresh : tbl n = none) :
    (libc_signal bits tbl n h1).1 = 2 ^ bits - 1 ∧
    (libc_signal bits tbl n h1).2 n = some h1 ∧
    (libc_signal bits (libc_signal bits tbl n h1).2 n h2).1 = h1 := by
  refine ⟨?_, ?_, ?_⟩ <;> simp [libc_signal, hfresh]

theorem signal_spec_witness :
    (libc_signal 64 emptySigTbl 2 4096).1 = 2 ^ 64 - 1 ∧
    (libc_signal 64 emptySigTbl 2 4096).2 2 = some 4096 ∧
    (libc_signal 64 (libc_signal 64 emptySigTbl 2 4096).2 2 8192).1 = 4096 :=
  signal_spec 64 emptySigTbl 2 4096 8192 rfl

/-- Claim C10: for every call to `strrchr` on string address `s` with
concrete string length, the emitted constraint on the fresh 64-bit
result only requires the result to equal 0 or to lie in the half-open
interval from `s` to `s + strlen + 1`; the constraint never requires the
searched character to actually occur at the returned address, so every
address in that interval is a satisfying assignment even at positions
whose byte differs from the searched character, and 0 satisfies it as
well — strictly looser than a bounded-search contract. -/
theorem strrchr_loose_spec (mem : Nat → Nat) (c sAddr sLen a : Nat)
    (h1 : sAddr ≤ a) (h2 : a < sAddr + sLen + 1) (h3 : mem a ≠ c) :
    libc_strrchr sAddr sLen a ∧ libc_strrchr sAddr sLen 0 := by
  constructor
  · exact Or.inl ⟨h1, by omega⟩
  · exact Or.inr rfl

theorem strrchr_loose_spec_witness :
    libc_strrchr 100 4 103 ∧ libc_strrchr 100 4 0 :=
  strrchr_loose_spec zeroMem 47 100 4 103 (by decide) (by decide) (by decide)
